import Mathlib

/-!
Shallow embedding of the median-cut color quantizer (`src/lib.rs` of `mcq`).

Rust `u32` pixel values are embedded as `Nat` with explicit masking
(`& 0xFFFFFF` becomes `% 16777216`, byte extraction becomes `/`,`% 256`);
`u8` channel fields are `Nat` (the source type guarantees values `< 256`,
which appears as a hypothesis where a theorem needs it); `i32`/`isize`
values are `Int`.  The mutable `Vec<ColorNode>` shared by the boxes is
threaded explicitly: functions that mutate it in Rust return the new list.
Rust's indexing panics are modelled with `Option`/`getD`; the stable
`slice::sort_by` is modelled by `List.insertionSort` with a non-strict
comparison, which is stable in the same way.
-/

/-- `enum ColorDimension` from the source. -/
inductive ColorDimension where
  | Red : ColorDimension
  | Green : ColorDimension
  | Blue : ColorDimension
deriving Repr, DecidableEq, Inhabited

/-- `struct ColorNode`: one distinct color with its pixel count. -/
structure ColorNode where
  rgb : Nat
  red : Nat
  grn : Nat
  blu : Nat
  cnt : Nat
deriving Repr, DecidableEq, Inhabited

namespace ColorNode

/-- `ColorNode::new_rgb`: decodes a packed value; note the source stores
`blu` from bits 16..23 and `red` from bits 0..7. -/
def new_rgb (rgb : Nat) (cnt : Nat) : ColorNode :=
  { rgb := rgb % 16777216
    blu := (rgb / 65536) % 256
    grn := (rgb / 256) % 256
    red := rgb % 256
    cnt := cnt }

/-- `ColorNode::new_colors`: encodes channels into the packed value. -/
def new_colors (red grn blu cnt : Nat) : ColorNode :=
  { rgb := (red % 256) * 65536 + (grn % 256) * 256 + blu % 256
    red := red
    grn := grn
    blu := blu
    cnt := cnt }

/-- `ColorNode::distance2`: squared Euclidean RGB distance. -/
def distance2 (c : ColorNode) (red grn blu : Nat) : Int :=
  let dr : Int := (c.red : Int) - (red : Int)
  let dg : Int := (c.grn : Int) - (grn : Int)
  let db : Int := (c.blu : Int) - (blu : Int)
  dr * dr + dg * dg + db * db

end ColorNode

/-- `struct ColorBox`: an index range into the shared node array plus
cached per-channel bounds and pixel count. -/
structure ColorBox where
  lower : Nat
  upper : Nat
  level : Int
  count : Nat
  rmin : Int
  rmax : Int
  gmin : Int
  gmax : Int
  bmin : Int
  bmax : Int
deriving Repr, DecidableEq, Inhabited

namespace ColorBox

/-- `ColorBox::color_count`. -/
def color_count (b : ColorBox) : Nat := b.upper - b.lower

/-- One step of the `trim` loop body. -/
def trimStep (acc : ColorBox) (c : ColorNode) : ColorBox :=
  { acc with
    count := acc.count + c.cnt
    rmax := if (c.red : Int) > acc.rmax then (c.red : Int) else acc.rmax
    rmin := if (c.red : Int) < acc.rmin then (c.red : Int) else acc.rmin
    gmax := if (c.grn : Int) > acc.gmax then (c.grn : Int) else acc.gmax
    gmin := if (c.grn : Int) < acc.gmin then (c.grn : Int) else acc.gmin
    bmax := if (c.blu : Int) > acc.bmax then (c.blu : Int) else acc.bmax
    bmin := if (c.blu : Int) < acc.bmin then (c.blu : Int) else acc.bmin }

/-- `ColorBox::trim`: recompute bounds and count over `[lower, upper)`. -/
def trim (b : ColorBox) (colors : List ColorNode) : ColorBox :=
  ((colors.drop b.lower).take (b.upper - b.lower)).foldl trimStep
    { b with rmin := 255, rmax := 0, gmin := 255, gmax := 0,
             bmin := 255, bmax := 0, count := 0 }

/-- `ColorBox::new`: fields from the arguments, the rest zeroed
(`..Default::default()`), then `trim`. -/
def new (lower upper : Nat) (level : Int) (colors : List ColorNode) : ColorBox :=
  trim { lower := lower, upper := upper, level := level, count := 0,
         rmin := 0, rmax := 0, gmin := 0, gmax := 0, bmin := 0, bmax := 0 } colors

/-- `ColorBox::get_longest_color_dimension` with its Blue/Green/Red
tie-break order. -/
def get_longest_color_dimension (b : ColorBox) : ColorDimension :=
  let r_length := b.rmax - b.rmin
  let g_length := b.gmax - b.gmin
  let b_length := b.bmax - b.bmin
  if b_length ≥ r_length ∧ b_length ≥ g_length then ColorDimension.Blue
  else if g_length ≥ r_length ∧ g_length ≥ b_length then ColorDimension.Green
  else ColorDimension.Red

/-- The sort key used by `find_median` for a dimension. -/
def chanKey (dim : ColorDimension) (c : ColorNode) : Nat :=
  match dim with
  | ColorDimension.Red => c.red
  | ColorDimension.Green => c.grn
  | ColorDimension.Blue => c.blu

/-- Comparison relation of the per-channel sort (`a.red.cmp(&b.red)` etc.). -/
def chanRel (dim : ColorDimension) : ColorNode → ColorNode → Prop :=
  fun a b => chanKey dim a ≤ chanKey dim b

instance (dim : ColorDimension) : DecidableRel (chanRel dim) :=
  fun a b => Nat.decLe _ _

/-- Stable sort of the sub-slice `[lo, hi)` of a list, the rest untouched;
models `colors[lo..hi].sort_by(...)`. -/
def sortRange (lo hi : Nat) (dim : ColorDimension) (l : List ColorNode) :
    List ColorNode :=
  l.take lo ++ List.insertionSort (chanRel dim) ((l.drop lo).take (hi - lo))
    ++ l.drop hi

/-- The median scan loop: `for median in lower..upper` accumulating `cnt`
until it reaches `half`; `fuel` is the number of remaining iterations. -/
def medianScan (colors : List ColorNode) :
    (fuel m acc half : Nat) → Option Nat
  | 0, _, _, _ => none
  | fuel + 1, m, acc, half =>
    let acc' := acc + (colors.getD m default).cnt
    if half ≤ acc' then some m else medianScan colors fuel (m + 1) acc' half

/-- `ColorBox::find_median`: sorts `colors[lower..upper+1]` (note: one past
`upper`, exactly as the source does) by the chosen channel, then scans
`[lower, upper)` for the running-count median; returns the index and the
reordered node array. -/
def find_median (b : ColorBox) (dim : ColorDimension)
    (colors : List ColorNode) : Nat × List ColorNode :=
  let cs := sortRange b.lower (b.upper + 1) dim colors
  ((medianScan cs (b.upper - b.lower) b.lower 0 (b.count / 2)).getD b.lower, cs)

/-- `ColorBox::split_box`: `None` when fewer than 2 nodes; otherwise split
at the median of the longest dimension, returning the shrunk self, the new
upper box and the reordered node array. -/
def split_box (b : ColorBox) (colors : List ColorNode) :
    Option (ColorBox × ColorBox × List ColorNode) :=
  if b.color_count < 2 then none
  else
    let dim := b.get_longest_color_dimension
    let r := b.find_median dim colors
    let med := r.1
    let colors' := r.2
    let next_level := b.level + 1
    let new_box := ColorBox.new (med + 1) b.upper next_level colors'
    let self' := ColorBox.trim { b with upper := med, level := next_level } colors'
    some (self', new_box, colors')

/-- `ColorBox::get_average_color`: weighted channel sums over `[lower, upper)`. -/
def avgSums (b : ColorBox) (colors : List ColorNode) : Nat × Nat × Nat × Nat :=
  ((colors.drop b.lower).take (b.upper - b.lower)).foldl
    (fun acc c =>
      (acc.1 + c.cnt * c.red, acc.2.1 + c.cnt * c.grn,
       acc.2.2.1 + c.cnt * c.blu, acc.2.2.2 + c.cnt))
    (0, 0, 0, 0)

/-- `(0.5 + sum as f64 / n as f64) as u8`: round-half-up of `sum / n`, and
`0` when `n = 0` (NaN saturates to 0 in the source's cast). -/
def avgChannel (sum n : Nat) : Nat :=
  if n = 0 then 0 else (2 * sum + n) / (2 * n)

/-- `ColorBox::get_average_color`. -/
def get_average_color (b : ColorBox) (colors : List ColorNode) : ColorNode :=
  let s := avgSums b colors
  ColorNode.new_colors (avgChannel s.1 s.2.2.2) (avgChannel s.2.1 s.2.2.2)
    (avgChannel s.2.2.1 s.2.2.2) s.2.2.2

end ColorBox

/-- Run-length encoding loop of `ColorHistogram::new_pixels` (the
`cur_color` / count accumulation over the sorted pixel list). -/
def rleAux (cur n : Nat) : List Nat → List (Nat × Nat)
  | [] => [(cur, n)]
  | b :: l => if b = cur then rleAux cur (n + 1) l else (cur, n) :: rleAux b 1 l

/-- Run-length encoding of a list: one `(color, count)` pair per run of
equal consecutive values. -/
def rle : List Nat → List (Nat × Nat)
  | [] => []
  | a :: l => rleAux a 1 l

/-- Alpha stripping: `0xFFFFFF & pixel` for every pixel. -/
def maskedPixels (pixels : List Nat) : List Nat :=
  pixels.map (fun p => p % 16777216)

/-- The numerically sorted masked pixel list (`pixels_copy.sort()`). -/
def sortedPixels (pixels : List Nat) : List Nat :=
  List.insertionSort (fun a b => a ≤ b) (maskedPixels pixels)

/-- `ColorHistogram::new_pixels` as a list of `(color, count)` pairs
(the source's two parallel arrays, zipped). -/
def histPairs (pixels : List Nat) : List (Nat × Nat) :=
  rle (sortedPixels pixels)

/-- The deduplicated node array built at the start of
`find_representative_colors`. -/
def histNodes (pixels : List Nat) : List ColorNode :=
  (histPairs pixels).map (fun q => ColorNode.new_rgb q.1 q.2)

namespace MMCQ

/-- Scan of `find_box_to_split`: first splittable box (≥ 2 nodes) with
the strictly smallest level seen so far. -/
def fbtsAux : List ColorBox → Nat → Option Nat → Int → Option Nat
  | [], _, best, _ => best
  | b :: rest, i, best, minLevel =>
    if 2 ≤ b.color_count ∧ b.level < minLevel then
      fbtsAux rest (i + 1) (some i) b.level
    else
      fbtsAux rest (i + 1) best minLevel

/-- `MMCQ::find_box_to_split`, returning the index of the chosen box
(the source returns a mutable reference).  `9223372036854775807` is
`isize::MAX`, the initial `min_level`. -/
def find_box_to_split (set : List ColorBox) : Option Nat :=
  fbtsAux set 0 none 9223372036854775807

/-- The `while k < k_max && !done` splitting loop; `fuel` is the number of
remaining permitted iterations (`k_max - k`).  The inner `none` branch of
`split_box` is unreachable because the selector only returns boxes with at
least two nodes. -/
def splitLoop (colors : List ColorNode) (set : List ColorBox) :
    Nat → List ColorNode × List ColorBox
  | 0 => (colors, set)
  | fuel + 1 =>
    match find_box_to_split set with
    | none => (colors, set)
    | some i =>
      match ColorBox.split_box (set.getD i default) colors with
      | none => (colors, set)
      | some r => splitLoop r.2.2 ((set.set i r.1) ++ [r.2.1]) fuel

/-- The sequence of `(node array, box set)` states `splitLoop` passes
through, in order: the state at every loop entry plus the final state.
Every box that exists at any moment of the build appears in some traced
state's set, and each split's range sort happens on the box selected in
one traced state, against that state's node array. -/
def splitLoopTrace (colors : List ColorNode) (set : List ColorBox) :
    Nat → List (List ColorNode × List ColorBox)
  | 0 => [(colors, set)]
  | fuel + 1 =>
    match find_box_to_split set with
    | none => [(colors, set)]
    | some i =>
      match ColorBox.split_box (set.getD i default) colors with
      | none => [(colors, set)]
      | some r =>
        (colors, set) :: splitLoopTrace r.2.2 ((set.set i r.1) ++ [r.2.1]) fuel

/-- The boxing phase of `find_representative_colors`: node array, root box
over `(0, cnum - 1)`, then the splitting loop (at most `k_max - 1` splits). -/
def buildColorSet (pixels : List Nat) (k_max : Nat) :
    List ColorNode × List ColorBox :=
  let nodes := histNodes pixels
  let initial_box := ColorBox.new 0 (nodes.length - 1) 0 nodes
  splitLoop nodes [initial_box] (k_max - 1)

/-- `MMCQ::average_colors`: one averaged node per box, in box-set order. -/
def average_colors (colors : List ColorNode) (set : List ColorBox) :
    List ColorNode :=
  set.map (fun b => b.get_average_color colors)

/-- `MMCQ::find_representative_colors`. -/
def find_representative_colors (pixels : List Nat) (k_max : Nat) :
    List ColorNode :=
  let nodes := histNodes pixels
  if nodes.length ≤ k_max then nodes
  else
    let r := buildColorSet pixels k_max
    average_colors r.1 r.2

/-- Descending-by-count comparison of the final palette sort
(`sort_by(|a, b| b.cnt.cmp(&a.cnt))`). -/
def cntDesc (a b : ColorNode) : Prop := b.cnt ≤ a.cnt

instance : DecidableRel cntDesc := fun a b => Nat.decLe _ _

instance : IsTotal ColorNode cntDesc := ⟨fun a b => Nat.le_total b.cnt a.cnt⟩

instance : IsTrans ColorNode cntDesc := ⟨fun _ _ _ h1 h2 => Nat.le_trans h2 h1⟩

/-- `MMCQ::from_pixels_u32_rgba`: build the palette, then stable-sort it
descending by count.  The result is the `quant_colors` field. -/
def from_pixels_u32_rgba (pixels : List Nat) (k_max : Nat) : List ColorNode :=
  List.insertionSort cntDesc (find_representative_colors pixels k_max)

/-- The channel decoding used by `find_closest_color_index`
(`red` from bits 16..23, `grn` from 8..15, `blu` from 0..7). -/
def decodeRed (rgb : Nat) : Nat := (rgb / 65536) % 256

def decodeGrn (rgb : Nat) : Nat := (rgb / 256) % 256

def decodeBlu (rgb : Nat) : Nat := rgb % 256

/-- The scan loop of `find_closest_color_index`, carrying the loop state
`(min_idx, min_distance)`; `i` is the index of the head of the remaining
list. -/
def closestAux (r g b : Nat) : List ColorNode → Nat → Nat → Int → Nat × Int
  | [], _, minIdx, minDist => (minIdx, minDist)
  | c :: rest, i, minIdx, minDist =>
    let d2 := c.distance2 r g b
    if d2 < minDist then closestAux r g b rest (i + 1) i d2
    else closestAux r g b rest (i + 1) minIdx minDist

/-- `MMCQ::find_closest_color_index`; `2147483647` is `i32::MAX`, the
initial `min_distance`. -/
def find_closest_color_index (pal : List ColorNode) (rgb : Nat) : Nat :=
  (closestAux (decodeRed rgb) (decodeGrn rgb) (decodeBlu rgb) pal 0 0
    2147483647).1

/-- `MMCQ::find_closest_color`; the source indexes `quant_colors[idx]`,
whose out-of-bounds panic is modelled by `none`. -/
def find_closest_color (pal : List ColorNode) (rgb : Nat) : Option ColorNode :=
  pal.get? (find_closest_color_index pal rgb)

/-- Squared distance from a palette node to a packed pixel, under the
decoding of `find_closest_color_index`; used to state nearest-color
properties. -/
def distToPixel (c : ColorNode) (rgb : Nat) : Int :=
  c.distance2 (decodeRed rgb) (decodeGrn rgb) (decodeBlu rgb)

/-- `MMCQ::quantize_image`: replace every pixel by the `rgb` of its
closest palette node; `none` models the panic on an empty palette. -/
def quantize_image (pal : List ColorNode) : List Nat → Option (List Nat)
  | [] => some []
  | p :: ps =>
    match find_closest_color pal p with
    | none => none
    | some c =>
      match quantize_image pal ps with
      | none => none
      | some rest => some (c.rgb :: rest)

end MMCQ

section ClaimEvaluations

open MMCQ

/-- C3: fails on the code. `ColorNode::new_rgb` stores `blu` from bits
16..23 and `red` from bits 0..7, so the canonical encoding
`rgb = (red<<16)|(grn<<8)|blu` is violated by the `new_rgb` constructor
(here at packed input `0x000001`), while `new_colors` does satisfy it:
the two constructors disagree on the byte order. -/
theorem C3_new_rgb_byte_order_violated :
    (ColorNode.new_rgb 1 1).rgb = 1
    ∧ (ColorNode.new_rgb 1 1).red = 1
    ∧ (ColorNode.new_rgb 1 1).grn = 0
    ∧ (ColorNode.new_rgb 1 1).blu = 0
    ∧ (ColorNode.new_rgb 1 1).red * 65536 + (ColorNode.new_rgb 1 1).grn * 256
        + (ColorNode.new_rgb 1 1).blu ≠ (ColorNode.new_rgb 1 1).rgb
    ∧ (ColorNode.new_colors 1 0 0 1).red * 65536
        + (ColorNode.new_colors 1 0 0 1).grn * 256
        + (ColorNode.new_colors 1 0 0 1).blu = (ColorNode.new_colors 1 0 0 1).rgb := by
  decide

/-- C4: fails on the code. With `k_max = 0` and the non-empty input
`[0x000000]` the build has no guard: the splitting branch is entered,
the loop body never runs, and the single root box is averaged into one
palette entry, so the palette has length 1 rather than being empty. -/
theorem C4_kmax_zero_returns_one_entry :
    (from_pixels_u32_rgba [0] 0).length = 1 := by decide

/-- C5: fails on the code. For input pixels `[0x000000, 0x000001]` and
`k_max = 1` the node array has 2 entries, but the root box created by the
build is `(lower, upper) = (0, 1)`, whose half-open range `[0, 1)` does
not contain index 1: the boxes do not cover every index of the node
array (the last node is outside every box). -/
theorem C5_boxes_do_not_cover_last_index :
    (histNodes [0, 1]).length = 2
    ∧ (buildColorSet [0, 1] 1).2.length = 1
    ∧ ((buildColorSet [0, 1] 1).2.getD 0 default).lower = 0
    ∧ ((buildColorSet [0, 1] 1).2.getD 0 default).upper = 1
    ∧ (∀ b ∈ (buildColorSet [0, 1] 1).2, ¬(b.lower ≤ 1 ∧ 1 < b.upper)) := by
  decide

/-- C6: fails on the code. `find_median` sorts `colors[lower..upper+1]`,
one element past `upper`.  For the box `(lower, upper) = (0, 2)` over a
3-node array with blue channel values `5, 3, 1`, the longest dimension is
Blue, and after `find_median` the node at index 2 — outside the claimed
sort range `[0, 2)` — has changed (its blue value went from 1 to 5),
so the sort was not confined to `[lower, upper)`. -/
theorem C6_sort_touches_index_upper :
    (ColorBox.new 0 2 0 [ColorNode.new_colors 0 0 5 1,
        ColorNode.new_colors 0 0 3 1,
        ColorNode.new_colors 0 0 1 1]).get_longest_color_dimension
      = ColorDimension.Blue
    ∧ (((ColorBox.new 0 2 0 [ColorNode.new_colors 0 0 5 1,
          ColorNode.new_colors 0 0 3 1,
          ColorNode.new_colors 0 0 1 1]).find_median ColorDimension.Blue
          [ColorNode.new_colors 0 0 5 1, ColorNode.new_colors 0 0 3 1,
           ColorNode.new_colors 0 0 1 1]).2.getD 2 default).blu = 5
    ∧ ([ColorNode.new_colors 0 0 5 1, ColorNode.new_colors 0 0 3 1,
        ColorNode.new_colors 0 0 1 1].getD 2 default).blu = 1 := by
  decide

/-- C8: fails on the code. For the palette built from
`[0x0000FF, 0xFF0000]` with `K = 2` (the raw branch, whose nodes carry the
`new_rgb` byte swap), quantizing `[0x0000FF]` yields `[0xFF0000]`, but
quantizing that result yields `[0x0000FF]` again: `quantize_image` is not
idempotent with respect to this built palette. -/
theorem C8_quantize_not_idempotent :
    quantize_image (from_pixels_u32_rgba [255, 16711680] 2) [255]
        = some [16711680]
    ∧ quantize_image (from_pixels_u32_rgba [255, 16711680] 2) [16711680]
        = some [255]
    ∧ (quantize_image (from_pixels_u32_rgba [255, 16711680] 2) [255]).bind
        (quantize_image (from_pixels_u32_rgba [255, 16711680] 2))
        ≠ quantize_image (from_pixels_u32_rgba [255, 16711680] 2) [255] := by
  decide

/-- C2, counterexample: the palette built from the empty pixel input is
empty, and `quantize_image` with that built palette on the non-empty
input `[0]` does not return a sequence at all (the source indexes
`quant_colors[0]` out of bounds), so it does not return a sequence of
the same length. -/
theorem C2_empty_palette_no_output :
    from_pixels_u32_rgba [] 1 = []
    ∧ quantize_image (from_pixels_u32_rgba [] 1) [0] = none := by
  decide

end ClaimEvaluations

namespace MMCQ

/-- Each iteration of the splitting loop adds at most one box. -/
theorem splitLoop_length_le (fuel : Nat) :
    ∀ (colors : List ColorNode) (set : List ColorBox),
      ((splitLoop colors set fuel).2).length ≤ set.length + fuel := by
  induction fuel with
  | zero => intro colors set; simp [splitLoop]
  | succ fuel ih =>
    intro colors set
    cases hf : find_box_to_split set with
    | none => simp [splitLoop, hf]
    | some i =>
      cases hs : ColorBox.split_box (set.getD i default) colors with
      | none =>
        simp only [splitLoop, hf, hs]
        omega
      | some r =>
        have := ih r.2.2 ((set.set i r.1) ++ [r.2.1])
        simp only [splitLoop, hf, hs]
        simp only [List.length_append, List.length_set, List.length_singleton]
          at this
        omega

end MMCQ

/-- C1: for every pixel input and every `K ≥ 1`, both build entry points
return a palette with at most `K` entries: the raw branch returns the
`cnum ≤ K` histogram nodes, and the splitting branch grows the box set
from 1 by at most `K - 1` splits, with one averaged color per box. -/
theorem C1_palette_at_most_k (pixels : List Nat) (k_max : Nat)
    (h : 1 ≤ k_max) :
    (MMCQ.find_representative_colors pixels k_max).length ≤ k_max
    ∧ (MMCQ.from_pixels_u32_rgba pixels k_max).length ≤ k_max := by
  have hrep : (MMCQ.find_representative_colors pixels k_max).length ≤ k_max := by
    unfold MMCQ.find_representative_colors
    by_cases hc : (histNodes pixels).length ≤ k_max
    · simp only [hc, if_true]
    · have hb := MMCQ.splitLoop_length_le (k_max - 1) (histNodes pixels)
        [ColorBox.new 0 ((histNodes pixels).length - 1) 0 (histNodes pixels)]
      simp only [hc, if_false, MMCQ.average_colors, MMCQ.buildColorSet,
        List.length_map]
      simp at hb
      omega
  refine ⟨hrep, ?_⟩
  unfold MMCQ.from_pixels_u32_rgba
  simp only [List.length_insertionSort]
  exact hrep

/-- C1 witness at `pixels = [0, 1, 2]`, `K = 2`. -/
theorem C1_palette_at_most_k_witness :
    (1 ≤ 2)
    ∧ ((MMCQ.find_representative_colors [0, 1, 2] 2).length ≤ 2
        ∧ (MMCQ.from_pixels_u32_rgba [0, 1, 2] 2).length ≤ 2) :=
  ⟨by decide, C1_palette_at_most_k [0, 1, 2] 2 (by decide)⟩

namespace MMCQ

/-- The scan of `find_closest_color_index` returns either the incoming
accumulator index or the position of some scanned element. -/
theorem closestAux_fst (r g b : Nat) (cs : List ColorNode) :
    ∀ (i mi : Nat) (mD : Int),
      (closestAux r g b cs i mi mD).1 = mi
      ∨ ∃ t, t < cs.length ∧ (closestAux r g b cs i mi mD).1 = i + t := by
  induction cs with
  | nil => intro i mi mD; exact Or.inl rfl
  | cons c rest ih =>
    intro i mi mD
    simp only [closestAux]
    by_cases hd : c.distance2 r g b < mD
    · simp only [if_pos hd]
      rcases ih (i + 1) i (c.distance2 r g b) with h | ⟨t, ht, h⟩
      · exact Or.inr ⟨0, by simp, by omega⟩
      · exact Or.inr ⟨t + 1, by simp; omega, by omega⟩
    · simp only [if_neg hd]
      rcases ih (i + 1) mi mD with h | ⟨t, ht, h⟩
      · exact Or.inl h
      · exact Or.inr ⟨t + 1, by simp; omega, by omega⟩

/-- On a non-empty palette the chosen index is in bounds. -/
theorem find_closest_color_index_lt (pal : List ColorNode) (rgb : Nat)
    (h : pal ≠ []) : find_closest_color_index pal rgb < pal.length := by
  have hlen : 0 < pal.length := List.length_pos.mpr h
  unfold find_closest_color_index
  rcases closestAux_fst (decodeRed rgb) (decodeGrn rgb) (decodeBlu rgb) pal 0 0
      2147483647 with h0 | ⟨t, ht, h0⟩
  · omega
  · omega

/-- On a non-empty palette `find_closest_color` always succeeds, returning
the node at the chosen index. -/
theorem find_closest_color_eq (pal : List ColorNode) (rgb : Nat)
    (h : pal ≠ []) :
    find_closest_color pal rgb
      = some (pal.getD (find_closest_color_index pal rgb) default) := by
  have hlt := find_closest_color_index_lt pal rgb h
  unfold find_closest_color
  rw [List.get?_eq_get hlt]
  simp [List.getD, List.getElem?_eq_getElem hlt]

/-- On a non-empty palette `quantize_image` succeeds and maps each pixel
independently to the `rgb` of its closest palette node. -/
theorem quantize_image_eq (pal : List ColorNode) (h : pal ≠ []) :
    ∀ ps : List Nat,
      quantize_image pal ps
        = some (ps.map
            (fun p => (pal.getD (find_closest_color_index pal p) default).rgb)) := by
  intro ps
  induction ps with
  | nil => rfl
  | cons p ps ih =>
    simp only [quantize_image, find_closest_color_eq pal p h, ih, List.map_cons]

end MMCQ

/-- C9: with an empty palette (as built from an empty pixel input) and a
non-empty pixel list, `find_closest_color_index` returns position 0 and
the lookup `quant_colors[0]` is out of bounds, so `quantize_image`
produces no output; with at least one palette entry every lookup is in
bounds and `quantize_image` is total. -/
theorem C9_quantize_totality (pal : List ColorNode) (pixels : List Nat)
    (p : Nat) (h : pal ≠ []) :
    MMCQ.find_closest_color_index [] p = 0
    ∧ MMCQ.find_closest_color [] p = none
    ∧ MMCQ.quantize_image [] (p :: pixels) = none
    ∧ MMCQ.find_closest_color_index pal p < pal.length
    ∧ (MMCQ.quantize_image pal pixels).isSome = true := by
  refine ⟨rfl, rfl, rfl, MMCQ.find_closest_color_index_lt pal p h, ?_⟩
  rw [MMCQ.quantize_image_eq pal h pixels]
  rfl

/-- C9 witness at a one-entry palette and input `[0x000005]`. -/
theorem C9_quantize_totality_witness :
    ([ColorNode.new_rgb 3 1] ≠ ([] : List ColorNode))
    ∧ (MMCQ.find_closest_color_index [] 5 = 0
      ∧ MMCQ.find_closest_color [] 5 = none
      ∧ MMCQ.quantize_image [] (5 :: [5]) = none
      ∧ MMCQ.find_closest_color_index [ColorNode.new_rgb 3 1] 5
          < [ColorNode.new_rgb 3 1].length
      ∧ (MMCQ.quantize_image [ColorNode.new_rgb 3 1] [5]).isSome = true) :=
  ⟨by decide, C9_quantize_totality [ColorNode.new_rgb 3 1] [5] 5 (by decide)⟩

namespace MMCQ

/-- Full loop invariant of the `find_closest_color_index` scan: the final
distance is a lower bound of the accumulator and of every scanned
element's distance; the final index is the accumulator or the position of
an element realising the final distance; and every element strictly
before the final index is strictly farther. -/
theorem closestAux_spec (r g b : Nat) (cs : List ColorNode) :
    ∀ (i mi : Nat) (mD : Int), mi ≤ i →
      (closestAux r g b cs i mi mD).2 ≤ mD
      ∧ (∀ t (ht : t < cs.length),
          (closestAux r g b cs i mi mD).2 ≤ (cs.get ⟨t, ht⟩).distance2 r g b)
      ∧ ((closestAux r g b cs i mi mD).1 = mi
            ∧ (closestAux r g b cs i mi mD).2 = mD
          ∨ ∃ t, ∃ ht : t < cs.length,
              (closestAux r g b cs i mi mD).1 = i + t
              ∧ (closestAux r g b cs i mi mD).2
                  = (cs.get ⟨t, ht⟩).distance2 r g b
              ∧ (closestAux r g b cs i mi mD).2 < mD)
      ∧ (∀ t (ht : t < cs.length), i + t < (closestAux r g b cs i mi mD).1 →
          (closestAux r g b cs i mi mD).2 < (cs.get ⟨t, ht⟩).distance2 r g b) := by
  induction cs with
  | nil =>
    intro i mi mD _
    refine ⟨le_refl _, ?_, Or.inl ⟨rfl, rfl⟩, ?_⟩
    · intro t ht; exact absurd ht (by simp)
    · intro t ht; exact absurd ht (by simp)
  | cons c rest ih =>
    intro i mi mD hmi
    simp only [closestAux]
    by_cases hd : c.distance2 r g b < mD
    · simp only [if_pos hd]
      obtain ⟨h1, h2, h3, h4⟩ := ih (i + 1) i (c.distance2 r g b) (by omega)
      refine ⟨le_of_lt (lt_of_le_of_lt h1 hd), ?_, ?_, ?_⟩
      · intro t ht
        match t with
        | 0 => exact h1
        | Nat.succ s => exact h2 s (by simpa using ht)
      · rcases h3 with ⟨he1, he2⟩ | ⟨s, hs, he1, he2, he3⟩
        · exact Or.inr ⟨0, by simp, by omega, he2, by rw [he2]; exact hd⟩
        · exact Or.inr ⟨s + 1, by simpa using hs, by omega, he2,
            lt_trans he3 hd⟩
      · intro t ht hlt
        match t with
        | 0 =>
          rcases h3 with ⟨he1, _⟩ | ⟨s, hs, he1, he2, he3⟩
          · omega
          · exact he3
        | Nat.succ s => exact h4 s (by simpa using ht) (by omega)
    · simp only [if_neg hd]
      have hmd : mD ≤ c.distance2 r g b := not_lt.mp hd
      obtain ⟨h1, h2, h3, h4⟩ := ih (i + 1) mi mD (by omega)
      refine ⟨h1, ?_, ?_, ?_⟩
      · intro t ht
        match t with
        | 0 => exact le_trans h1 hmd
        | Nat.succ s => exact h2 s (by simpa using ht)
      · rcases h3 with ⟨he1, he2⟩ | ⟨s, hs, he1, he2, he3⟩
        · exact Or.inl ⟨he1, he2⟩
        · exact Or.inr ⟨s + 1, by simpa using hs, by omega, he2, he3⟩
      · intro t ht hlt
        match t with
        | 0 =>
          rcases h3 with ⟨he1, he2⟩ | ⟨s, hs, he1, he2, he3⟩
          · omega
          · exact lt_of_lt_of_le he3 hmd
        | Nat.succ s => exact h4 s (by simpa using ht) (by omega)

/-- The squared distance of a node with byte-sized channels to any decoded
pixel stays strictly below the initial `i32::MAX` accumulator. -/
theorem distToPixel_lt_max (c : ColorNode) (p : Nat)
    (hc : c.red ≤ 255 ∧ c.grn ≤ 255 ∧ c.blu ≤ 255) :
    distToPixel c p < 2147483647 := by
  obtain ⟨hr, hg, hb⟩ := hc
  unfold distToPixel decodeRed decodeGrn decodeBlu
  simp only [ColorNode.distance2]
  have h1 : (p / 65536) % 256 < 256 := Nat.mod_lt _ (by omega)
  have h2 : (p / 256) % 256 < 256 := Nat.mod_lt _ (by omega)
  have h3 : p % 256 < 256 := Nat.mod_lt _ (by omega)
  have br : ((c.red : Int) - ((p / 65536) % 256 : Nat))
      * ((c.red : Int) - ((p / 65536) % 256 : Nat)) ≤ 65025 := by
    have hcr : (c.red : Int) ≤ 255 := by exact_mod_cast hr
    have hcr0 : (0 : Int) ≤ (c.red : Int) := Int.ofNat_nonneg _
    have hp : ((((p / 65536) % 256 : Nat)) : Int) ≤ 255 := by
      have := h1; omega
    have hp0 : (0 : Int) ≤ (((p / 65536) % 256 : Nat) : Int) := Int.ofNat_nonneg _
    nlinarith
  have bg : ((c.grn : Int) - ((p / 256) % 256 : Nat))
      * ((c.grn : Int) - ((p / 256) % 256 : Nat)) ≤ 65025 := by
    have hcg : (c.grn : Int) ≤ 255 := by exact_mod_cast hg
    have hcg0 : (0 : Int) ≤ (c.grn : Int) := Int.ofNat_nonneg _
    have hp : ((((p / 256) % 256 : Nat)) : Int) ≤ 255 := by
      have := h2; omega
    have hp0 : (0 : Int) ≤ (((p / 256) % 256 : Nat) : Int) := Int.ofNat_nonneg _
    nlinarith
  have bb : ((c.blu : Int) - (p % 256 : Nat))
      * ((c.blu : Int) - (p % 256 : Nat)) ≤ 65025 := by
    have hcb : (c.blu : Int) ≤ 255 := by exact_mod_cast hb
    have hcb0 : (0 : Int) ≤ (c.blu : Int) := Int.ofNat_nonneg _
    have hp : (((p % 256 : Nat)) : Int) ≤ 255 := by
      have := h3; omega
    have hp0 : (0 : Int) ≤ ((p % 256 : Nat) : Int) := Int.ofNat_nonneg _
    nlinarith
  omega

end MMCQ

/-- `List.getD` at an in-bounds index is `List.get`. -/
theorem listGetD_eq_get {α : Type} (l : List α) (n : Nat) (d : α)
    (h : n < l.length) : l.getD n d = l.get ⟨n, h⟩ := by
  simp [List.getD, List.getElem?_eq_getElem h]

/-- C2 (amended with the non-empty-palette proviso of C9): for a non-empty
palette of byte-sized channels, `quantize_image` returns a list of the
same length, in order, whose `i`-th value is the `rgb` of the palette
entry at the lowest index minimising the squared Euclidean distance
`dr*dr + dg*dg + db*db` to the `i`-th input pixel: entry `m` is never
strictly closer, and any entry before the chosen index is strictly
farther. -/
theorem C2_quantize_nearest (pal : List ColorNode) (pixels : List Nat)
    (i m : Nat) (hpal : pal ≠ [])
    (hchan : ∀ nd ∈ pal, nd.red ≤ 255 ∧ nd.grn ≤ 255 ∧ nd.blu ≤ 255)
    (hi : i < pixels.length) (hm : m < pal.length) :
    ∃ out, MMCQ.quantize_image pal pixels = some out
      ∧ out.length = pixels.length
      ∧ MMCQ.find_closest_color_index pal (pixels.getD i 0) < pal.length
      ∧ out.getD i 0
          = (pal.getD (MMCQ.find_closest_color_index pal (pixels.getD i 0))
              default).rgb
      ∧ MMCQ.distToPixel
            (pal.getD (MMCQ.find_closest_color_index pal (pixels.getD i 0))
              default) (pixels.getD i 0)
          ≤ MMCQ.distToPixel (pal.getD m default) (pixels.getD i 0)
      ∧ (m < MMCQ.find_closest_color_index pal (pixels.getD i 0) →
          MMCQ.distToPixel
              (pal.getD (MMCQ.find_closest_color_index pal (pixels.getD i 0))
                default) (pixels.getD i 0)
            < MMCQ.distToPixel (pal.getD m default) (pixels.getD i 0)) := by
  have hlen : 0 < pal.length := List.length_pos.mpr hpal
  set p := pixels.getD i 0 with hp
  set j := MMCQ.find_closest_color_index pal p with hj
  obtain ⟨h1, h2, h3, h4⟩ :=
    MMCQ.closestAux_spec (MMCQ.decodeRed p) (MMCQ.decodeGrn p)
      (MMCQ.decodeBlu p) pal 0 0 2147483647 (le_refl 0)
  -- the first element always beats the initial `i32::MAX`, so the scan
  -- settles on a real element realising the final minimum distance
  have hnotleft :
      ¬((MMCQ.closestAux (MMCQ.decodeRed p) (MMCQ.decodeGrn p)
          (MMCQ.decodeBlu p) pal 0 0 2147483647).1 = 0
        ∧ (MMCQ.closestAux (MMCQ.decodeRed p) (MMCQ.decodeGrn p)
          (MMCQ.decodeBlu p) pal 0 0 2147483647).2 = 2147483647) := by
    rintro ⟨-, habs⟩
    have hd0 := h2 0 hlen
    have hb0 := MMCQ.distToPixel_lt_max (pal.get ⟨0, hlen⟩) p
      (hchan _ (List.get_mem pal 0 hlen))
    rw [habs] at hd0
    exact absurd (lt_of_le_of_lt hd0 hb0) (lt_irrefl _)
  rcases h3 with h3 | ⟨t, ht, he1, he2, -⟩
  · exact absurd h3 hnotleft
  have hjt : j = t := by
    rw [hj, MMCQ.find_closest_color_index]; omega
  have hjlt : j < pal.length := by omega
  have hout := MMCQ.quantize_image_eq pal hpal pixels
  refine ⟨_, hout, by simp, hjlt, ?_, ?_, ?_⟩
  · -- the i-th output is the rgb of the chosen palette entry
    rw [listGetD_eq_get _ i _ (by simpa using hi), List.get_eq_getElem,
      List.getElem_map]
    have : pixels[i] = p := by
      rw [hp, listGetD_eq_get _ i _ hi]; simp
    rw [this]
  · -- no entry is strictly closer
    rw [listGetD_eq_get pal j _ hjlt, listGetD_eq_get pal m _ hm]
    show (pal.get ⟨j, hjlt⟩).distance2 (MMCQ.decodeRed p) (MMCQ.decodeGrn p)
          (MMCQ.decodeBlu p)
        ≤ (pal.get ⟨m, hm⟩).distance2 (MMCQ.decodeRed p) (MMCQ.decodeGrn p)
          (MMCQ.decodeBlu p)
    have hget : pal.get ⟨j, hjlt⟩ = pal.get ⟨t, ht⟩ :=
      congrArg pal.get (Fin.ext hjt)
    rw [hget, ← he2]
    exact h2 m hm
  · -- entries before the chosen index are strictly farther
    intro hmj
    have h4m := h4 m hm (by omega)
    rw [listGetD_eq_get pal j _ hjlt, listGetD_eq_get pal m _ hm]
    show (pal.get ⟨j, hjlt⟩).distance2 (MMCQ.decodeRed p) (MMCQ.decodeGrn p)
          (MMCQ.decodeBlu p)
        < (pal.get ⟨m, hm⟩).distance2 (MMCQ.decodeRed p) (MMCQ.decodeGrn p)
          (MMCQ.decodeBlu p)
    have hget : pal.get ⟨j, hjlt⟩ = pal.get ⟨t, ht⟩ :=
      congrArg pal.get (Fin.ext hjt)
    rw [hget, ← he2]
    exact h4m

/-- C2 witness at the palette built from `[0x000005]` with `K = 1` and the
input `[0x000007]`. -/
theorem C2_quantize_nearest_witness :
    (MMCQ.from_pixels_u32_rgba [5] 1 ≠ []
      ∧ (∀ nd ∈ MMCQ.from_pixels_u32_rgba [5] 1,
          nd.red ≤ 255 ∧ nd.grn ≤ 255 ∧ nd.blu ≤ 255)
      ∧ 0 < ([7] : List Nat).length
      ∧ 0 < (MMCQ.from_pixels_u32_rgba [5] 1).length)
    ∧ (∃ out, MMCQ.quantize_image (MMCQ.from_pixels_u32_rgba [5] 1) [7]
          = some out
        ∧ out.length = ([7] : List Nat).length
        ∧ MMCQ.find_closest_color_index (MMCQ.from_pixels_u32_rgba [5] 1)
            (([7] : List Nat).getD 0 0)
            < (MMCQ.from_pixels_u32_rgba [5] 1).length
        ∧ out.getD 0 0
            = ((MMCQ.from_pixels_u32_rgba [5] 1).getD
                (MMCQ.find_closest_color_index (MMCQ.from_pixels_u32_rgba [5] 1)
                  (([7] : List Nat).getD 0 0)) default).rgb
        ∧ MMCQ.distToPixel
              ((MMCQ.from_pixels_u32_rgba [5] 1).getD
                (MMCQ.find_closest_color_index (MMCQ.from_pixels_u32_rgba [5] 1)
                  (([7] : List Nat).getD 0 0)) default)
              (([7] : List Nat).getD 0 0)
            ≤ MMCQ.distToPixel ((MMCQ.from_pixels_u32_rgba [5] 1).getD 0 default)
              (([7] : List Nat).getD 0 0)
        ∧ (0 < MMCQ.find_closest_color_index (MMCQ.from_pixels_u32_rgba [5] 1)
              (([7] : List Nat).getD 0 0) →
            MMCQ.distToPixel
                ((MMCQ.from_pixels_u32_rgba [5] 1).getD
                  (MMCQ.find_closest_color_index
                    (MMCQ.from_pixels_u32_rgba [5] 1)
                    (([7] : List Nat).getD 0 0)) default)
                (([7] : List Nat).getD 0 0)
              < MMCQ.distToPixel
                  ((MMCQ.from_pixels_u32_rgba [5] 1).getD 0 default)
                  (([7] : List Nat).getD 0 0))) :=
  ⟨⟨by decide, by decide, by decide, by decide⟩,
    C2_quantize_nearest (MMCQ.from_pixels_u32_rgba [5] 1) [7] 0 0
      (by decide) (by decide) (by decide) (by decide)⟩

namespace ColorBox

/-- Sorting a sub-slice whose bounds are inside the list preserves length. -/
theorem sortRange_length (lo hi : Nat) (dim : ColorDimension)
    (l : List ColorNode) (h1 : lo ≤ hi) (h2 : hi ≤ l.length) :
    (sortRange lo hi dim l).length = l.length := by
  simp only [sortRange, List.length_append, List.length_take,
    List.length_drop, List.length_insertionSort]
  omega

/-- The median scan returns an index inside the scanned window. -/
theorem medianScan_some (colors : List ColorNode) :
    ∀ (fuel m acc half j : Nat),
      medianScan colors fuel m acc half = some j → m ≤ j ∧ j < m + fuel := by
  intro fuel
  induction fuel with
  | zero => intro m acc half j h; exact absurd h (by simp [medianScan])
  | succ fuel ih =>
    intro m acc half j h
    simp only [medianScan] at h
    by_cases hc : half ≤ acc + (colors.getD m default).cnt
    · rw [if_pos hc] at h
      cases h
      omega
    · rw [if_neg hc] at h
      have := ih (m + 1) _ half j h
      omega

/-- `find_median` returns an index in `[lower, upper)` whenever the box
has at least one node strictly between its bounds. -/
theorem find_median_bounds (b : ColorBox) (dim : ColorDimension)
    (colors : List ColorNode) (h : b.lower < b.upper) :
    b.lower ≤ (b.find_median dim colors).1
    ∧ (b.find_median dim colors).1 < b.upper := by
  have h0 : (b.find_median dim colors).1
      = (medianScan (sortRange b.lower (b.upper + 1) dim colors)
          (b.upper - b.lower) b.lower 0 (b.count / 2)).getD b.lower := rfl
  rw [h0]
  cases hs : medianScan (sortRange b.lower (b.upper + 1) dim colors)
      (b.upper - b.lower) b.lower 0 (b.count / 2) with
  | none => simp; omega
  | some j =>
    have := medianScan_some _ _ _ _ _ _ hs
    simp
    omega

/-- `find_median` preserves the node array length for an in-bounds box. -/
theorem find_median_length (b : ColorBox) (dim : ColorDimension)
    (colors : List ColorNode) (h1 : b.lower ≤ b.upper)
    (h2 : b.upper < colors.length) :
    ((b.find_median dim colors).2).length = colors.length := by
  unfold find_median
  exact sortRange_length b.lower (b.upper + 1) dim colors (by omega) (by omega)

/-- The `trim` fold never changes `lower`, `upper` or `level`. -/
theorem foldl_trimStep_fields (l : List ColorNode) :
    ∀ acc : ColorBox,
      (l.foldl trimStep acc).lower = acc.lower
      ∧ (l.foldl trimStep acc).upper = acc.upper
      ∧ (l.foldl trimStep acc).level = acc.level := by
  induction l with
  | nil => intro acc; exact ⟨rfl, rfl, rfl⟩
  | cons c rest ih =>
    intro acc
    simpa [List.foldl_cons, trimStep] using ih (trimStep acc c)

/-- `trim` keeps the box's range and level. -/
theorem trim_fields (b : ColorBox) (colors : List ColorNode) :
    (b.trim colors).lower = b.lower ∧ (b.trim colors).upper = b.upper
    ∧ (b.trim colors).level = b.level := by
  unfold trim
  exact foldl_trimStep_fields _ _

/-- `ColorBox::new` produces a box with the given range and level. -/
theorem new_fields (lower upper : Nat) (level : Int)
    (colors : List ColorNode) :
    (ColorBox.new lower upper level colors).lower = lower
    ∧ (ColorBox.new lower upper level colors).upper = upper
    ∧ (ColorBox.new lower upper level colors).level = level := by
  unfold new
  exact trim_fields _ _

/-- Shape of a successful split: the node array keeps its length, the
shrunk self covers `(lower, med)` with `lower ≤ med < upper`, and the new
box covers `(med+1, upper)`. -/
theorem split_box_inv (b : ColorBox) (colors : List ColorNode)
    (r : ColorBox × ColorBox × List ColorNode)
    (hs : split_box b colors = some r) (hub : b.upper < colors.length) :
    r.2.2.length = colors.length
    ∧ r.1.lower = b.lower ∧ b.lower ≤ r.1.upper ∧ r.1.upper < b.upper
    ∧ r.2.1.lower ≤ r.2.1.upper ∧ r.2.1.upper = b.upper := by
  unfold split_box at hs
  by_cases hc : b.color_count < 2
  · rw [if_pos hc] at hs; exact absurd hs (by simp)
  rw [if_neg hc] at hs
  have hcc : 2 ≤ b.upper - b.lower := by
    unfold color_count at hc; omega
  have hlu : b.lower < b.upper := by omega
  have hmed := find_median_bounds b b.get_longest_color_dimension colors hlu
  have hlen := find_median_length b b.get_longest_color_dimension colors
    (by omega) hub
  cases hs
  refine ⟨hlen, ?_, ?_, ?_, ?_, ?_⟩
  · exact (trim_fields _ _).1
  · rw [(trim_fields _ _).2.1]; exact hmed.1
  · rw [(trim_fields _ _).2.1]; exact hmed.2
  · rw [(new_fields _ _ _ _).1, (new_fields _ _ _ _).2.1]; omega
  · exact (new_fields _ _ _ _).2.1

end ColorBox

namespace MMCQ

/-- The box-selection scan only returns the incoming accumulator or the
position of a splittable box. -/
theorem fbtsAux_some (set : List ColorBox) :
    ∀ (i : Nat) (best : Option Nat) (mL : Int) (j : Nat),
      fbtsAux set i best mL = some j →
      best = some j
      ∨ ∃ t, ∃ ht : t < set.length,
          j = i + t ∧ 2 ≤ (set.get ⟨t, ht⟩).color_count := by
  induction set with
  | nil => intro i best mL j h; exact Or.inl h
  | cons b rest ih =>
    intro i best mL j h
    simp only [fbtsAux] at h
    by_cases hc : 2 ≤ b.color_count ∧ b.level < mL
    · rw [if_pos hc] at h
      rcases ih (i + 1) (some i) b.level j h with h | ⟨t, ht, he, hcnt⟩
      · cases h
        exact Or.inr ⟨0, by simp, by omega, hc.1⟩
      · exact Or.inr ⟨t + 1, by simpa using ht, by omega, hcnt⟩
    · rw [if_neg hc] at h
      rcases ih (i + 1) best mL j h with h | ⟨t, ht, he, hcnt⟩
      · exact Or.inl h
      · exact Or.inr ⟨t + 1, by simpa using ht, by omega, hcnt⟩

/-- A successful `find_box_to_split` returns an in-bounds index of a box
with at least two nodes. -/
theorem find_box_to_split_some (set : List ColorBox) (j : Nat)
    (h : find_box_to_split set = some j) :
    j < set.length ∧ 2 ≤ (set.getD j default).color_count := by
  rcases fbtsAux_some set 0 none 9223372036854775807 j h with h | ⟨t, ht, he, hcnt⟩
  · exact absurd h (by simp)
  · have hj : j = t := by omega
    subst hj
    refine ⟨ht, ?_⟩
    rw [listGetD_eq_get set j default ht]
    exact hcnt

/-- Loop invariant of the splitting loop: the node array length is
preserved and every box keeps `lower ≤ upper < length`. -/
theorem splitLoop_inv (n : Nat) :
    ∀ (fuel : Nat) (colors : List ColorNode) (set : List ColorBox),
      colors.length = n →
      (∀ b ∈ set, b.lower ≤ b.upper ∧ b.upper < n) →
      ((splitLoop colors set fuel).1.length = n
        ∧ ∀ b ∈ (splitLoop colors set fuel).2,
            b.lower ≤ b.upper ∧ b.upper < n) := by
  intro fuel
  induction fuel with
  | zero => intro colors set hlen hinv; exact ⟨hlen, hinv⟩
  | succ fuel ih =>
    intro colors set hlen hinv
    cases hf : find_box_to_split set with
    | none =>
      simp only [splitLoop, hf]
      exact ⟨hlen, hinv⟩
    | some i =>
      obtain ⟨hi, hcnt⟩ := find_box_to_split_some set i hf
      have hbmem : set.getD i default ∈ set := by
        rw [listGetD_eq_get set i default hi]
        exact List.get_mem set i hi
      obtain ⟨hbl, hbu⟩ := hinv _ hbmem
      cases hs : ColorBox.split_box (set.getD i default) colors with
      | none =>
        simp only [splitLoop, hf, hs]
        exact ⟨hlen, hinv⟩
      | some r =>
        obtain ⟨hrlen, hr1l, hr1u1, hr1u2, hr2l, hr2u⟩ :=
          ColorBox.split_box_inv _ _ _ hs (by omega)
        have hinv' : ∀ b ∈ (set.set i r.1) ++ [r.2.1],
            b.lower ≤ b.upper ∧ b.upper < n := by
          intro b hb
          rcases List.mem_append.mp hb with hb | hb
          · rcases List.mem_or_eq_of_mem_set hb with hb | hb
            · exact hinv b hb
            · subst hb
              constructor
              · rw [hr1l]; omega
              · omega
          · have : b = r.2.1 := by simpa using hb
            subst this
            exact ⟨hr2l, by omega⟩
        have := ih r.2.2 ((set.set i r.1) ++ [r.2.1]) (by omega) hinv'
        simp only [splitLoop, hf, hs]
        exact this

/-- The invariant holds at every state of the splitting loop's trace:
the node array keeps its length and every box of every traversed state
satisfies `lower ≤ upper < length`. -/
theorem splitLoopTrace_inv (n : Nat) :
    ∀ (fuel : Nat) (colors : List ColorNode) (set : List ColorBox),
      colors.length = n →
      (∀ b ∈ set, b.lower ≤ b.upper ∧ b.upper < n) →
      ∀ s ∈ splitLoopTrace colors set fuel,
        s.1.length = n ∧ ∀ b ∈ s.2, b.lower ≤ b.upper ∧ b.upper < n := by
  intro fuel
  induction fuel with
  | zero =>
    intro colors set hlen hinv s hs
    have hse : s = (colors, set) := by simpa [splitLoopTrace] using hs
    subst hse
    exact ⟨hlen, hinv⟩
  | succ fuel ih =>
    intro colors set hlen hinv s hs
    cases hf : find_box_to_split set with
    | none =>
      simp only [splitLoopTrace, hf, List.mem_singleton] at hs
      subst hs
      exact ⟨hlen, hinv⟩
    | some i =>
      obtain ⟨hi, hcnt⟩ := find_box_to_split_some set i hf
      have hbmem : set.getD i default ∈ set := by
        rw [listGetD_eq_get set i default hi]
        exact List.get_mem set i hi
      obtain ⟨hbl, hbu⟩ := hinv _ hbmem
      cases hsb : ColorBox.split_box (set.getD i default) colors with
      | none =>
        simp only [splitLoopTrace, hf, hsb, List.mem_singleton] at hs
        subst hs
        exact ⟨hlen, hinv⟩
      | some r =>
        obtain ⟨hrlen, hr1l, hr1u1, hr1u2, hr2l, hr2u⟩ :=
          ColorBox.split_box_inv _ _ _ hsb (by omega)
        have hinv' : ∀ b ∈ (set.set i r.1) ++ [r.2.1],
            b.lower ≤ b.upper ∧ b.upper < n := by
          intro b hb
          rcases List.mem_append.mp hb with hb | hb
          · rcases List.mem_or_eq_of_mem_set hb with hb | hb
            · exact hinv b hb
            · subst hb
              exact ⟨by rw [hr1l]; omega, by omega⟩
          · have hbe : b = r.2.1 := by simpa using hb
            subst hbe
            exact ⟨hr2l, by omega⟩
        simp only [splitLoopTrace, hf, hsb, List.mem_cons] at hs
        rcases hs with hs | hs
        · subst hs
          exact ⟨hlen, hinv⟩
        · exact ih r.2.2 ((set.set i r.1) ++ [r.2.1]) (by omega) hinv' s hs

/-- The final state of the splitting loop is one of its traced states. -/
theorem splitLoop_mem_trace :
    ∀ (fuel : Nat) (colors : List ColorNode) (set : List ColorBox),
      splitLoop colors set fuel ∈ splitLoopTrace colors set fuel := by
  intro fuel
  induction fuel with
  | zero => intro colors set; simp [splitLoop, splitLoopTrace]
  | succ fuel ih =>
    intro colors set
    cases hf : find_box_to_split set with
    | none =>
      simp only [splitLoop, splitLoopTrace, hf]
      exact List.mem_singleton.mpr rfl
    | some i =>
      cases hsb : ColorBox.split_box (set.getD i default) colors with
      | none =>
        simp only [splitLoop, splitLoopTrace, hf, hsb]
        exact List.mem_singleton.mpr rfl
      | some r =>
        simp only [splitLoop, splitLoopTrace, hf, hsb]
        exact List.mem_cons_of_mem _ (ih r.2.2 ((set.set i r.1) ++ [r.2.1]))

end MMCQ

/-- C10: at every step of a palette build with at least one distinct
color — i.e. in every state the splitting loop passes through, starting
from the root box over `(0, cnum - 1)` — the node array keeps its length
`cnum` and every box existing at that moment satisfies `lower ≤ upper`
and `upper < cnum` (that is, `upper ≤ cnum - 1`); moreover, whenever a
state's `find_box_to_split` selects a box, the slice `[lower, upper + 1)`
that `find_median` is about to sort lies inside that state's node array,
as do the `[lower, upper)` loops of `trim` and `get_average_color`; the
final build state is among the traced states, so the whole build is
covered. -/
theorem C10_box_bounds_invariant (pixels : List Nat) (k_max : Nat)
    (h : 1 ≤ (histNodes pixels).length) :
    (∀ s ∈ MMCQ.splitLoopTrace (histNodes pixels)
        [ColorBox.new 0 ((histNodes pixels).length - 1) 0 (histNodes pixels)]
        (k_max - 1),
      s.1.length = (histNodes pixels).length
      ∧ (∀ b ∈ s.2, b.lower ≤ b.upper ∧ b.upper < s.1.length)
      ∧ (∀ i, MMCQ.find_box_to_split s.2 = some i →
          (s.2.getD i default).upper + 1 ≤ s.1.length))
    ∧ MMCQ.buildColorSet pixels k_max
        ∈ MMCQ.splitLoopTrace (histNodes pixels)
            [ColorBox.new 0 ((histNodes pixels).length - 1) 0
              (histNodes pixels)]
            (k_max - 1) := by
  have hinit : ∀ b ∈ [ColorBox.new 0 ((histNodes pixels).length - 1) 0
      (histNodes pixels)],
      b.lower ≤ b.upper ∧ b.upper < (histNodes pixels).length := by
    intro b hb
    have hbe : b = ColorBox.new 0 ((histNodes pixels).length - 1) 0
        (histNodes pixels) := by simpa using hb
    subst hbe
    rw [(ColorBox.new_fields _ _ _ _).1, (ColorBox.new_fields _ _ _ _).2.1]
    omega
  have htr := MMCQ.splitLoopTrace_inv (histNodes pixels).length (k_max - 1)
    (histNodes pixels)
    [ColorBox.new 0 ((histNodes pixels).length - 1) 0 (histNodes pixels)]
    rfl hinit
  refine ⟨?_, ?_⟩
  · intro s hs
    obtain ⟨h1, h2⟩ := htr s hs
    refine ⟨h1, fun b hb => ⟨(h2 b hb).1, by rw [h1]; exact (h2 b hb).2⟩, ?_⟩
    intro i hfi
    obtain ⟨hi, -⟩ := MMCQ.find_box_to_split_some s.2 i hfi
    have hbmem : s.2.getD i default ∈ s.2 := by
      rw [listGetD_eq_get s.2 i default hi]
      exact List.get_mem s.2 i hi
    have h3 := (h2 _ hbmem).2
    rw [h1]
    omega
  · have hEq : MMCQ.buildColorSet pixels k_max
        = MMCQ.splitLoop (histNodes pixels)
            [ColorBox.new 0 ((histNodes pixels).length - 1) 0
              (histNodes pixels)]
            (k_max - 1) := rfl
    rw [hEq]
    exact MMCQ.splitLoop_mem_trace (k_max - 1) _ _

/-- C10 witness at `pixels = [0, 1, 2]`, `k_max = 2`, which performs an
actual split (trace of two states). -/
theorem C10_box_bounds_invariant_witness :
    (1 ≤ (histNodes [0, 1, 2]).length)
    ∧ ((∀ s ∈ MMCQ.splitLoopTrace (histNodes [0, 1, 2])
          [ColorBox.new 0 ((histNodes [0, 1, 2]).length - 1) 0
            (histNodes [0, 1, 2])]
          (2 - 1),
        s.1.length = (histNodes [0, 1, 2]).length
        ∧ (∀ b ∈ s.2, b.lower ≤ b.upper ∧ b.upper < s.1.length)
        ∧ (∀ i, MMCQ.find_box_to_split s.2 = some i →
            (s.2.getD i default).upper + 1 ≤ s.1.length))
      ∧ MMCQ.buildColorSet [0, 1, 2] 2
          ∈ MMCQ.splitLoopTrace (histNodes [0, 1, 2])
              [ColorBox.new 0 ((histNodes [0, 1, 2]).length - 1) 0
                (histNodes [0, 1, 2])]
              (2 - 1)) :=
  ⟨by decide, C10_box_bounds_invariant [0, 1, 2] 2 (by decide)⟩

/-- Unfolding: a pixel equal to the current run extends the run. -/
theorem rleAux_cons_self (cur n : Nat) (t : List Nat) :
    rleAux cur n (cur :: t) = rleAux cur (n + 1) t := by
  simp [rleAux]

/-- Unfolding: a pixel different from the current run closes the run. -/
theorem rleAux_cons_ne (cur n b : Nat) (t : List Nat) (h : b ≠ cur) :
    rleAux cur n (b :: t) = (cur, n) :: rleAux b 1 t := by
  simp [rleAux, h]

/-- Correctness of the histogram's run-length loop on a sorted tail: the
emitted pairs are exactly the current run (with its accumulated count)
plus one pair per value of the tail, carrying its full multiplicity. -/
theorem rleAux_mem_iff (l : List Nat) :
    ∀ (cur n : Nat), l.Sorted (· ≤ ·) → (∀ x ∈ l, cur ≤ x) →
      ∀ c m, ((c, m) ∈ rleAux cur n l
        ↔ (c = cur ∧ m = n + l.count cur)
          ∨ (c ≠ cur ∧ c ∈ l ∧ m = l.count c)) := by
  induction l with
  | nil =>
    intro cur n _ _ c m
    constructor
    · intro h
      have hp : (c, m) = (cur, n) := by simpa [rleAux] using h
      have h1 : c = cur := congrArg Prod.fst hp
      have h2 : m = n := congrArg Prod.snd hp
      exact Or.inl ⟨h1, by simp [h2]⟩
    · rintro (⟨hc, hm⟩ | ⟨_, hmem, _⟩)
      · subst hc
        rw [List.count_nil] at hm
        simp [rleAux, hm]
      · exact absurd hmem (List.not_mem_nil _)
  | cons b t ih =>
    intro cur n hsort hlb c m
    have hsort' : t.Sorted (· ≤ ·) := (List.sorted_cons.mp hsort).2
    have hbt : ∀ x ∈ t, b ≤ x := (List.sorted_cons.mp hsort).1
    by_cases hbc : b = cur
    · subst hbc
      rw [rleAux_cons_self b n t, ih b (n + 1) hsort' hbt c m,
        List.count_cons_self]
      constructor
      · rintro (⟨hc, hm⟩ | ⟨hc, hmem, hm⟩)
        · exact Or.inl ⟨hc, by omega⟩
        · exact Or.inr ⟨hc, List.mem_cons_of_mem b hmem,
            by rw [List.count_cons_of_ne hc]; exact hm⟩
      · rintro (⟨hc, hm⟩ | ⟨hc, hmem, hm⟩)
        · exact Or.inl ⟨hc, by omega⟩
        · refine Or.inr ⟨hc, ?_,
            by rw [List.count_cons_of_ne hc] at hm; exact hm⟩
          rcases List.mem_cons.mp hmem with h | h
          · exact absurd h hc
          · exact h
    · have hcub : cur ≤ b := hlb b (List.mem_cons_self b t)
      have hcb : cur < b := lt_of_le_of_ne hcub (fun h => hbc h.symm)
      have hcur_not : cur ∉ b :: t := by
        intro hmem
        rcases List.mem_cons.mp hmem with h | h
        · omega
        · exact absurd (hbt cur h) (by omega)
      have hcount0 : (b :: t).count cur = 0 := List.count_eq_zero.mpr hcur_not
      rw [rleAux_cons_ne cur n b t hbc, List.mem_cons,
        ih b 1 hsort' hbt c m]
      constructor
      · rintro (hpair | ⟨hc, hm⟩ | ⟨hc, hmem, hm⟩)
        · have h1 : c = cur := congrArg Prod.fst hpair
          have h2 : m = n := congrArg Prod.snd hpair
          exact Or.inl ⟨h1, by rw [hcount0]; omega⟩
        · have hcc : c ≠ cur := by rw [hc]; exact hbc
          have hmm : c ∈ b :: t := by rw [hc]; exact List.mem_cons_self b t
          have hcount : m = (b :: t).count c := by
            rw [hc, List.count_cons_self]; omega
          exact Or.inr ⟨hcc, hmm, hcount⟩
        · have hcc : c ≠ cur := by
            intro h
            subst h
            exact absurd (hbt c hmem) (by omega)
          exact Or.inr ⟨hcc, List.mem_cons_of_mem b hmem,
            by rw [List.count_cons_of_ne hc]; exact hm⟩
      · rintro (⟨hc, hm⟩ | ⟨hc, hmem, hm⟩)
        · subst hc
          rw [hcount0] at hm
          exact Or.inl (by simp [hm])
        · by_cases hcb2 : c = b
          · subst hcb2
            refine Or.inr (Or.inl ⟨rfl, ?_⟩)
            rw [List.count_cons_self] at hm
            omega
          · refine Or.inr (Or.inr ⟨hcb2, ?_, ?_⟩)
            · rcases List.mem_cons.mp hmem with h | h
              · exact absurd h hcb2
              · exact h
            · rw [List.count_cons_of_ne hcb2] at hm; exact hm

/-- Correctness of the histogram RLE on a sorted list: the pairs are
exactly the values of the list with their multiplicities. -/
theorem rle_mem_iff (l : List Nat) (hs : l.Sorted (· ≤ ·)) (c m : Nat) :
    ((c, m) ∈ rle l ↔ c ∈ l ∧ m = l.count c) := by
  cases l with
  | nil => simp [rle]
  | cons a t =>
    have hsort' : t.Sorted (· ≤ ·) := (List.sorted_cons.mp hs).2
    have hat : ∀ x ∈ t, a ≤ x := (List.sorted_cons.mp hs).1
    show (c, m) ∈ rleAux a 1 t ↔ _
    rw [rleAux_mem_iff t a 1 hsort' hat c m]
    constructor
    · rintro (⟨hc, hm⟩ | ⟨hc, hmem, hm⟩)
      · subst hc
        refine ⟨List.mem_cons_self c t, ?_⟩
        rw [List.count_cons_self]; omega
      · exact ⟨List.mem_cons_of_mem a hmem,
          by rw [List.count_cons_of_ne hc]; exact hm⟩
    · rintro ⟨hmem, hm⟩
      by_cases hc : c = a
      · subst hc
        rw [List.count_cons_self] at hm
        exact Or.inl ⟨rfl, by omega⟩
      · refine Or.inr ⟨hc, ?_,
          by rw [List.count_cons_of_ne hc] at hm; exact hm⟩
        rcases List.mem_cons.mp hmem with h | h
        · exact absurd h hc
        · exact h

/-- Inserting an element whose key-equal peers all stay behind it puts it
at the front of its key class: the ordered insert prepends `x` to the
filtered key class when the key matches, and leaves the class untouched
otherwise. -/
theorem filter_orderedInsert (r : ColorNode → ColorNode → Prop)
    [DecidableRel r] (k : ColorNode → Nat) (x : ColorNode)
    (hk : ∀ y, k y = k x → r x y) :
    ∀ (l : List ColorNode) (v : Nat),
      (List.orderedInsert r x l).filter (fun y => k y == v)
        = if k x = v then x :: l.filter (fun y => k y == v)
          else l.filter (fun y => k y == v) := by
  intro l
  induction l with
  | nil =>
    intro v
    by_cases hv : k x = v
    · simp [List.orderedInsert, List.filter, hv]
    · have hb : (k x == v) = false := by simp [hv]
      simp [List.orderedInsert, List.filter, hb, hv]
  | cons y t ih =>
    intro v
    simp only [List.orderedInsert]
    by_cases hr : r x y
    · rw [if_pos hr]
      by_cases hv : k x = v <;> simp [List.filter_cons, hv]
    · rw [if_neg hr]
      have hky : k y ≠ k x := fun h => hr (hk y h)
      rw [List.filter_cons, List.filter_cons]
      by_cases hyv : k y = v
      · have hxv : k x ≠ v := by rw [← hyv]; exact fun h => hky h.symm
        simp [hyv, hxv, ih v]
      · simp [hyv, ih v]

/-- Stability of `insertionSort` for a key-respecting relation: sorting
does not change the subsequence of elements at any fixed key value. -/
theorem filter_insertionSort (r : ColorNode → ColorNode → Prop)
    [DecidableRel r] (k : ColorNode → Nat)
    (hk : ∀ a b, k a = k b → r a b) :
    ∀ (l : List ColorNode) (v : Nat),
      (List.insertionSort r l).filter (fun y => k y == v)
        = l.filter (fun y => k y == v) := by
  intro l
  induction l with
  | nil => intro v; rfl
  | cons a t ih =>
    intro v
    simp only [List.insertionSort]
    rw [filter_orderedInsert r k a (fun y hy => hk a y hy.symm) _ v]
    by_cases hv : k a = v
    · rw [if_pos hv, ih v, List.filter_cons]
      simp [hv]
    · rw [if_neg hv, ih v, List.filter_cons]
      simp [hv]

/-- C7: the final palette is, in every case, the stable
descending-by-count sort of the construction-order palette: it is sorted
by `cntDesc` and its subsequence at any fixed count value equals that of
`find_representative_colors`'s output (stability).  Moreover, when the
image has at most `K` distinct colors, the build takes the raw branch:
the palette is exactly the histogram nodes (same packed colors, same
multiplicities, nothing averaged), one entry per distinct masked color
with its exact pixel count. -/
theorem C7_small_palette (pixels : List Nat) (K c n : Nat) :
    List.Sorted MMCQ.cntDesc (MMCQ.from_pixels_u32_rgba pixels K)
    ∧ (MMCQ.from_pixels_u32_rgba pixels K).filter (fun x => x.cnt == n)
        = (MMCQ.find_representative_colors pixels K).filter
            (fun x => x.cnt == n)
    ∧ ((histNodes pixels).length ≤ K →
        (MMCQ.find_representative_colors pixels K = histNodes pixels
          ∧ (MMCQ.from_pixels_u32_rgba pixels K).length
              = (histNodes pixels).length
          ∧ ((∃ nd ∈ MMCQ.from_pixels_u32_rgba pixels K,
                nd.rgb = c ∧ nd.cnt = n)
              ↔ (c ∈ maskedPixels pixels
                ∧ n = (maskedPixels pixels).count c)))) := by
  have hsorted : (sortedPixels pixels).Sorted (fun a b => a ≤ b) :=
    List.sorted_insertionSort _ _
  have hcountp : ∀ a : Nat,
      (sortedPixels pixels).count a = (maskedPixels pixels).count a :=
    fun a => (List.perm_insertionSort _ _).count_eq a
  refine ⟨List.sorted_insertionSort MMCQ.cntDesc _, ?_, ?_⟩
  · unfold MMCQ.from_pixels_u32_rgba
    exact filter_insertionSort MMCQ.cntDesc ColorNode.cnt
      (fun a b hab => le_of_eq hab.symm) _ n
  intro h
  have hraw : MMCQ.find_representative_colors pixels K = histNodes pixels := by
    unfold MMCQ.find_representative_colors
    rw [if_pos h]
  refine ⟨hraw, ?_, ?_⟩
  · unfold MMCQ.from_pixels_u32_rgba
    rw [List.length_insertionSort, hraw]
  · constructor
    · rintro ⟨nd, hnd, hrgb, hcnt⟩
      rw [MMCQ.from_pixels_u32_rgba, List.mem_insertionSort, hraw] at hnd
      unfold histNodes histPairs at hnd
      obtain ⟨q, hq, hndq⟩ := List.mem_map.mp hnd
      have hq2 := (rle_mem_iff (sortedPixels pixels) hsorted q.1 q.2).mp
        (by simpa using hq)
      have hmem : q.1 ∈ maskedPixels pixels := by
        have := hq2.1
        rwa [sortedPixels, List.mem_insertionSort] at this
      have hlt : q.1 < 16777216 := by
        obtain ⟨p, -, hp⟩ := List.mem_map.mp hmem
        rw [← hp]
        exact Nat.mod_lt _ (by omega)
      have hrgbq : nd.rgb = q.1 := by
        rw [← hndq]
        exact Nat.mod_eq_of_lt hlt
      have hcntq : nd.cnt = q.2 := by rw [← hndq]; rfl
      have hcq : c = q.1 := by rw [← hrgb, hrgbq]
      refine ⟨by rw [hcq]; exact hmem, ?_⟩
      rw [hcq, ← hcountp q.1, ← hq2.2, ← hcntq, hcnt]
    · rintro ⟨hmem, hcount⟩
      have hmem' : c ∈ sortedPixels pixels := by
        rw [sortedPixels, List.mem_insertionSort]
        exact hmem
      have hcnt' : n = (sortedPixels pixels).count c := by
        rw [hcount, hcountp c]
      have hpair : (c, n) ∈ rle (sortedPixels pixels) :=
        (rle_mem_iff _ hsorted c n).mpr ⟨hmem', hcnt'⟩
      have hlt : c < 16777216 := by
        obtain ⟨p, -, hp⟩ := List.mem_map.mp hmem
        rw [← hp]
        exact Nat.mod_lt _ (by omega)
      refine ⟨ColorNode.new_rgb c n, ?_, ?_, rfl⟩
      · rw [MMCQ.from_pixels_u32_rgba, List.mem_insertionSort, hraw]
        unfold histNodes histPairs
        exact List.mem_map.mpr ⟨(c, n), hpair, rfl⟩
      · exact Nat.mod_eq_of_lt hlt

/-- C7 witness at `pixels = [7, 7, 3]`, `K = 5`, color 7 with count 2:
the unconditional sortedness and stability conjuncts instantiated, plus
the raw-branch conjuncts with the `cnum ≤ K` hypothesis discharged. -/
theorem C7_small_palette_witness :
    ((histNodes [7, 7, 3]).length ≤ 5)
    ∧ List.Sorted MMCQ.cntDesc (MMCQ.from_pixels_u32_rgba [7, 7, 3] 5)
    ∧ (MMCQ.from_pixels_u32_rgba [7, 7, 3] 5).filter (fun x => x.cnt == 2)
        = (MMCQ.find_representative_colors [7, 7, 3] 5).filter
            (fun x => x.cnt == 2)
    ∧ (MMCQ.find_representative_colors [7, 7, 3] 5 = histNodes [7, 7, 3]
      ∧ (MMCQ.from_pixels_u32_rgba [7, 7, 3] 5).length
          = (histNodes [7, 7, 3]).length
      ∧ ((∃ nd ∈ MMCQ.from_pixels_u32_rgba [7, 7, 3] 5,
            nd.rgb = 7 ∧ nd.cnt = 2)
          ↔ (7 ∈ maskedPixels [7, 7, 3]
            ∧ 2 = (maskedPixels [7, 7, 3]).count 7))) :=
  ⟨by decide, (C7_small_palette [7, 7, 3] 5 7 2).1,
    (C7_small_palette [7, 7, 3] 5 7 2).2.1,
    (C7_small_palette [7, 7, 3] 5 7 2).2.2 (by decide)⟩
